import Mathlib

/-!
Verification of the paginated event-aggregation scripts of a GitLab
reporting repository.  The five Python scripts are embedded shallowly:

* `get_projects.py`        : `get_all_project_ids`
* `user_activity.py`       : `get_all_users`, `get_user_push_count`, main loop
* `user_activity_commit.py`: `get_user_push_events`
* `user_activity_last_commit.py` and
  `user_activity_last_commit_by_email.py` :
  `get_user_push_count` (with last-push reduction) — the two functions are
  textually identical in the source, so one embedding
  (`get_user_push_count_lc`) covers both; the by-email variant adds the
  email-filtered `get_all_users`.

The HTTP transport is modelled as an oracle: each fetch loop receives the
list of responses the endpoint would give for pages 1, 2, …; a response is
either a transport-or-status error (the `requests.exceptions.RequestException`
branch) or a decoded JSON page.  JSON record fields use `Option` (`none` =
absent key, the `dict.get` default semantics).  Python `datetime` values are
modelled by an instant (`Int`, with `datetime.datetime(1, 1, 1)` at 0) plus
an awareness flag; comparing a naive with an aware datetime is a `TypeError`.
-/

set_option autoImplicit false

namespace GitlabScripts

/-- Timezone suffix of an ISO-8601 timestamp string as sent by the API:
no suffix (naive), a trailing `Z`, or an explicit numeric offset. -/
inductive TzSuffix where
  | naive
  | zulu
  | offsetTz (off : Int)
deriving DecidableEq

/-- An ISO-8601 timestamp string: the wall-clock value it denotes plus its
timezone suffix. -/
structure TsString where
  wall : Int
  suffix : TzSuffix
deriving DecidableEq

/-- A Python `datetime.datetime`: an instant on a common scale (with
`datetime.datetime(1, 1, 1)` at 0) plus the offset-awareness flag. -/
structure PyDatetime where
  t : Int
  aware : Bool
deriving DecidableEq

/-- The Python exceptions the reducers can raise that are not caught by the
`except requests.exceptions.RequestException` handler. -/
inductive PyErr where
  | keyError
  | typeError
deriving DecidableEq

/-- `created_at.replace('Z', '+00:00')` : a trailing zulu marker becomes the
explicit UTC offset; any other string is unchanged. -/
def replaceZ (s : TsString) : TsString :=
  match s.suffix with
  | TzSuffix.zulu => { wall := s.wall, suffix := TzSuffix.offsetTz 0 }
  | _ => s

/-- `datetime.datetime.fromisoformat` : a string with no timezone suffix
parses to a naive datetime carrying its wall-clock value; a suffixed string
parses to an aware datetime whose instant is the wall-clock value minus the
offset (a trailing `Z` meaning offset 0). -/
def fromisoformat (s : TsString) : PyDatetime :=
  match s.suffix with
  | TzSuffix.naive => { t := s.wall, aware := false }
  | TzSuffix.zulu => { t := s.wall, aware := true }
  | TzSuffix.offsetTz off => { t := s.wall - off, aware := true }

/-- Python `>` on two datetimes: raises `TypeError` when exactly one side is
offset-aware, otherwise compares the instants. -/
def pyGT (a b : PyDatetime) : Except PyErr Bool :=
  if a.aware = b.aware then Except.ok (decide (b.t < a.t))
  else Except.error PyErr.typeError

/-- The `push_data` object of an event (every field may be absent). -/
structure PushData where
  action : Option String := none
  commit_count : Option Int := none
  ref : Option String := none
  commit_to : Option String := none
deriving DecidableEq

/-- One event record of the `/users/{id}/events` endpoint. -/
structure Event where
  action_name : Option String := none
  created_at : Option TsString := none
  project_id : Option Int := none
  project_path : Option String := none
  push_data : Option PushData := none
deriving DecidableEq

/-- One project record of the `/projects` endpoint. -/
structure Project where
  id : Option Int := none
  path_with_namespace : Option String := none
deriving DecidableEq

/-- One user record of the `/users` endpoint. -/
structure ApiUser where
  id : Option Int := none
  username : Option String := none
  email : Option String := none
deriving DecidableEq

/-- The `{'id': …, 'username': …}` dict the user fetchers accumulate. -/
structure UserRec where
  id : Option Int
  username : Option String
deriving DecidableEq

/-- The `{'id': …, 'username': …, 'email': …}` dict accumulated by the
email-filtered user fetcher. -/
structure UserRecE where
  id : Option Int
  username : Option String
  email : String
deriving DecidableEq

/-- `EVENTS_PER_PAGE` of the event-reporting scripts. -/
def EVENTS_PER_PAGE : Nat := 100

/-- `USERS_PER_PAGE` of the event-reporting scripts. -/
def USERS_PER_PAGE : Nat := 100

/-- `EMAIL_FILTER_SUBSTRING` of `user_activity_last_commit_by_email.py`. -/
def EMAIL_FILTER_SUBSTRING : String := "kestrl"

/-- A transport response: a decoded JSON page, or a raised
`requests.exceptions.RequestException` (transport failure or, after
`raise_for_status`, a non-2xx status). -/
abbrev Resp (α : Type) := Except Unit (List α)

/-! ### get_projects.py -/

/-- Python truthiness of `project.get('id')`: `None` and `0` are falsy. -/
def projectTruthyId (p : Project) : Option Int :=
  match p.id with
  | none => none
  | some i => if i = 0 then none else some i

/-- The per-page body of `get_all_project_ids`: append `(id, name)` for each
project whose `id` is truthy. -/
def extractProjects (ps : List Project) : List (Int × Option String) :=
  ps.filterMap (fun p =>
    match projectTruthyId p with
    | some i => some (i, p.path_with_namespace)
    | none => none)

/-- The `while True` loop of `get_all_project_ids`, with the running
`all_project_ids` list as accumulator.  It breaks (returning the
accumulator) on a transport error or an empty page; there is no short-page
early exit in this script. -/
def getAllProjectIdsGo (acc : List (Int × Option String)) :
    List (Resp Project) → List (Int × Option String)
  | [] => acc
  | Except.error _ :: _ => acc
  | Except.ok projects :: rest =>
    if projects.isEmpty then acc
    else getAllProjectIdsGo (acc ++ extractProjects projects) rest

/-- `get_all_project_ids` of `get_projects.py`, as a function of the
endpoint's responses for pages 1, 2, …. -/
def get_all_project_ids (resps : List (Resp Project)) : List (Int × Option String) :=
  getAllProjectIdsGo [] resps

/-! ### get_all_users (user_activity.py / user_activity_last_commit.py /
user_activity_commit.py — identical in the three scripts) -/

/-- The per-page body of `get_all_users`: record id and username of every
user on the page. -/
def extractUsers (us : List ApiUser) : List UserRec :=
  us.map (fun u => { id := u.id, username := u.username })

/-- The `while True` loop of `get_all_users`: breaks on an empty page
returning the accumulated list, but `return None` on a transport error,
discarding the accumulator. -/
def getAllUsersGo (acc : List UserRec) :
    List (Resp ApiUser) → Option (List UserRec)
  | [] => some acc
  | Except.error _ :: _ => none
  | Except.ok users :: rest =>
    if users.isEmpty then some acc
    else getAllUsersGo (acc ++ extractUsers users) rest

/-- `get_all_users` of `user_activity.py` (also of
`user_activity_last_commit.py` and `user_activity_commit.py`). -/
def get_all_users (resps : List (Resp ApiUser)) : Option (List UserRec) :=
  getAllUsersGo [] resps

/-! ### Email-filtered get_all_users (user_activity_last_commit_by_email.py) -/

/-- Lowercasing of a character list (Python `str.lower`). -/
def lowerChars (l : List Char) : List Char :=
  l.map Char.toLower

/-- Does `sub` occur at the head of `l`? -/
def beginsWith : List Char → List Char → Bool
  | [], _ => true
  | _ :: _, [] => false
  | a :: as, b :: bs => a = b && beginsWith as bs

/-- Python `sub in s` on character lists: `sub` occurs contiguously in `l`. -/
def charsContain (sub : List Char) : List Char → Bool
  | [] => sub.isEmpty
  | c :: cs => beginsWith sub (c :: cs) || charsContain sub cs

/-- Python `sub in s` on strings. -/
def pyIn (sub s : String) : Bool :=
  charsContain sub.toList s.toList

/-- Python `str.lower`. -/
def pyLower (s : String) : String :=
  String.mk (lowerChars s.toList)

/-- The filter test of the by-email `get_all_users`:
`EMAIL_FILTER_SUBSTRING.lower() in user.get('email', '').lower()`,
generalized over the filter constant. -/
def emailKeep (filt : String) (u : ApiUser) : Bool :=
  pyIn (pyLower filt) (pyLower (u.email.getD ""))

/-- The per-page body of the by-email `get_all_users`: keep only users
passing the email filter, recording id, username and email. -/
def extractUsersE (filt : String) (us : List ApiUser) : List UserRecE :=
  us.filterMap (fun u =>
    if emailKeep filt u then
      some { id := u.id, username := u.username, email := u.email.getD "" }
    else none)

/-- The `while True` loop of the by-email `get_all_users`: same structure as
the unfiltered one (empty page breaks, transport error returns `None`). -/
def getAllUsersEGo (filt : String) (acc : List UserRecE) :
    List (Resp ApiUser) → Option (List UserRecE)
  | [] => some acc
  | Except.error _ :: _ => none
  | Except.ok users :: rest =>
    if users.isEmpty then some acc
    else getAllUsersEGo filt (acc ++ extractUsersE filt users) rest

/-- `get_all_users` of `user_activity_last_commit_by_email.py`. -/
def get_all_users_by_email (filt : String) (resps : List (Resp ApiUser)) :
    Option (List UserRecE) :=
  getAllUsersEGo filt [] resps

/-! ### user_activity.py : get_user_push_count (count only) -/

/-- The per-page counting loop: one increment per event whose `action_name`
is exactly `'pushed to'`. -/
def countPushed (evs : List Event) : Nat :=
  evs.foldl (fun n e => if e.action_name = some "pushed to" then n + 1 else n) 0

/-- The `while True` loop of `get_user_push_count` (count-only variant):
breaks on transport error or empty page; after counting a page, breaks if
the page was shorter than `EVENTS_PER_PAGE`. -/
def getUserPushCountGo (acc : Nat) : List (Resp Event) → Nat
  | [] => acc
  | Except.error _ :: _ => acc
  | Except.ok evs :: rest =>
    if evs.isEmpty then acc
    else
      let acc2 := acc + countPushed evs
      if evs.length < EVENTS_PER_PAGE then acc2 else getUserPushCountGo acc2 rest

/-- `get_user_push_count` of `user_activity.py`. -/
def get_user_push_count (resps : List (Resp Event)) : Nat :=
  getUserPushCountGo 0 resps

/-! ### user_activity_commit.py : get_user_push_events (detailed records) -/

/-- The flat record built for each relevant event in
`user_activity_commit.py`. -/
structure EventData where
  username : Option String
  activity_name : Option String
  project_id : Option Int
  project_path : Option String
  commit_count : Option Int
  ref : Option String
  event_date : Option TsString
deriving DecidableEq

/-- The `event_data` dict built for one relevant event:
`push_data.get('action', event.get('action_name'))` falls back to the
event's `action_name` when `push_data` has no `action` key; every other
field defaults to `None` when absent. -/
def extractPushEvent (username : Option String) (e : Event) : EventData :=
  let pd := e.push_data.getD {}
  { username := username
    activity_name := match pd.action with
      | some a => some a
      | none => e.action_name
    project_id := e.project_id
    project_path := e.project_path
    commit_count := pd.commit_count
    ref := pd.ref
    event_date := e.created_at }

/-- The per-page body of `get_user_push_events`: one `EventData` per event
whose `action_name` is exactly `'pushed to'`. -/
def extractPushEvents (username : Option String) (evs : List Event) : List EventData :=
  evs.filterMap (fun e =>
    if e.action_name = some "pushed to" then some (extractPushEvent username e)
    else none)

/-- The `while True` loop of `get_user_push_events`: same pagination policy
as the count-only variant. -/
def getUserPushEventsGo (username : Option String) (acc : List EventData) :
    List (Resp Event) → List EventData
  | [] => acc
  | Except.error _ :: _ => acc
  | Except.ok evs :: rest =>
    if evs.isEmpty then acc
    else
      let acc2 := acc ++ extractPushEvents username evs
      if evs.length < EVENTS_PER_PAGE then acc2
      else getUserPushEventsGo username acc2 rest

/-- `get_user_push_events` of `user_activity_commit.py`. -/
def get_user_push_events (username : Option String) (resps : List (Resp Event)) :
    List EventData :=
  getUserPushEventsGo username [] resps

/-! ### user_activity_last_commit.py / …_by_email.py : get_user_push_count
with last-push reduction -/

/-- The loop state of the last-commit `get_user_push_count`:
`push_count`, `last_push_datetime`, `last_push_commit_sha`. -/
structure RState where
  push_count : Nat
  last_push_datetime : PyDatetime
  last_push_commit_sha : String
deriving DecidableEq

/-- The initial state: count 0,
`datetime.datetime(1, 1, 1, tzinfo=datetime.timezone.utc)` (the minimum
aware datetime, instant 0 on our scale), sha `"N/A"`. -/
def initRState : RState :=
  { push_count := 0
    last_push_datetime := { t := 0, aware := true }
    last_push_commit_sha := "N/A" }

/-- `event.get('push_data', {}).get('commit_to', 'N/A')`. -/
def eventCommitTo (e : Event) : String :=
  ((e.push_data.getD {}).commit_to).getD "N/A"

/-- One iteration of the inner `for event in events` loop of the last-commit
reducer.  A relevant event is counted; its `created_at` is read with a bare
subscript (`KeyError` when absent), normalized with `replaceZ`, parsed, and
compared with Python `>` against the running maximum (which can raise
`TypeError`); a strictly greater timestamp installs the event's
`push_data.commit_to` (default `'N/A'`). -/
def processEvent (st : RState) (e : Event) : Except PyErr RState :=
  if e.action_name = some "pushed to" then
    let cnt := st.push_count + 1
    match e.created_at with
    | none => Except.error PyErr.keyError
    | some ts =>
      let cur := fromisoformat (replaceZ ts)
      match pyGT cur st.last_push_datetime with
      | Except.error er => Except.error er
      | Except.ok true =>
        Except.ok { push_count := cnt, last_push_datetime := cur,
                    last_push_commit_sha := eventCommitTo e }
      | Except.ok false =>
        Except.ok { st with push_count := cnt }
  else Except.ok st

/-- The inner `for event in events` loop over one page. -/
def processEvents (st : RState) : List Event → Except PyErr RState
  | [] => Except.ok st
  | e :: es =>
    match processEvent st e with
    | Except.error er => Except.error er
    | Except.ok st2 => processEvents st2 es

/-- The `while True` loop of the last-commit `get_user_push_count`: breaks
on transport error or empty page returning the state so far; an uncaught
`KeyError`/`TypeError` from the inner loop propagates; after a page, breaks
if the page was short. -/
def getUserPushCountLcGo (st : RState) : List (Resp Event) → Except PyErr RState
  | [] => Except.ok st
  | Except.error _ :: _ => Except.ok st
  | Except.ok evs :: rest =>
    if evs.isEmpty then Except.ok st
    else
      match processEvents st evs with
      | Except.error er => Except.error er
      | Except.ok st2 =>
        if evs.length < EVENTS_PER_PAGE then Except.ok st2
        else getUserPushCountLcGo st2 rest

/-- `get_user_push_count` of `user_activity_last_commit.py` (textually
identical in `user_activity_last_commit_by_email.py`).  The formatted date
string is modelled by the datetime it formats: `some` of the final maximum
when `push_count > 0`, `none` for the `"N/A"` branch. -/
def get_user_push_count_lc (resps : List (Resp Event)) :
    Except PyErr (Nat × Option PyDatetime × String) :=
  match getUserPushCountLcGo initRState resps with
  | Except.error er => Except.error er
  | Except.ok st =>
    Except.ok (st.push_count,
      if st.push_count > 0 then some st.last_push_datetime else none,
      st.last_push_commit_sha)

/-! ### user_activity.py : main loop -/

/-- Python `results[username] = count`: update in place when the key is
present (keeping its position), append otherwise. -/
def dictInsert (k : Option String) (v : Nat) :
    List (Option String × Nat) → List (Option String × Nat)
  | [] => [(k, v)]
  | (k2, v2) :: rest =>
    if k2 = k then (k, v) :: rest else (k2, v2) :: dictInsert k v rest

/-- The mutable state of the `__main__` loop of `user_activity.py`: the
`results` dict (in insertion order) and `total_pushes`. -/
structure MainState where
  results : List (Option String × Nat)
  total_pushes : Nat
deriving DecidableEq

/-- One iteration of `for user in user_list`: fetch the user's count from
its event responses; store it and add it to the total only when positive. -/
def mainStep (st : MainState) (u : UserRec × List (Resp Event)) : MainState :=
  let count := get_user_push_count u.2
  if count > 0 then
    { results := dictInsert u.1.username count st.results
      total_pushes := st.total_pushes + count }
  else st

/-- The `__main__` aggregation loop of `user_activity.py`, as a function of
the user list paired with each user's event-endpoint responses. -/
def mainLoop (users : List (UserRec × List (Resp Event))) : MainState :=
  users.foldl mainStep { results := [], total_pushes := 0 }

/-! ### Sorting of the reports -/

/-- Insert an element into a list sorted by `k` descending, before the
first element whose key does not exceed its own: inserting the elements in
input order, an element lands before all later-arriving elements of equal
key, which is the placement CPython's stable `sorted(…, reverse=True)`
produces. -/
def insDescBy {α : Type} (k : α → Nat) (x : α) : List α → List α
  | [] => [x]
  | y :: ys => if k y ≤ k x then x :: y :: ys else y :: insDescBy k x ys

/-- Stable descending sort by key `k`: the model of
`sorted(items, key=…, reverse=True)` (CPython documents this sort as
stable, ties keeping their original order). -/
def sortDescBy {α : Type} (k : α → Nat) : List α → List α
  | [] => []
  | x :: xs => insDescBy k x (sortDescBy k xs)

/-- One row of the Summary spreadsheet written by `save_to_xlsx` of
`user_activity_last_commit.py` (the formatted date again modelled by the
datetime it formats). -/
structure XlsxRow where
  username : Option String
  push_count : Nat
  last_date : Option PyDatetime
  last_commit : String
deriving DecidableEq

/-- Everything `pandas.DataFrame.sort_values(by=…, ascending=False)`
guarantees of its output under the default `kind='quicksort'`: a
permutation of the rows, sorted by the key descending.  The default
algorithm is documented as not stable, so tie order is unspecified. -/
def sortValuesOK {α : Type} (k : α → Nat) (f : List α → List α) : Prop :=
  ∀ l : List α, (f l).Perm l ∧ (f l).Pairwise (fun a b => k b ≤ k a)

/-! ### Page-prefix specification functions -/

/-- The prefix of pages an event fetcher consumes: stop before an empty
page, stop after a page shorter than `perPage`. -/
def pagesUntilShort {α : Type} (perPage : Nat) : List (List α) → List (List α)
  | [] => []
  | p :: ps =>
    if p.isEmpty then []
    else if p.length < perPage then [p]
    else p :: pagesUntilShort perPage ps

/-- The prefix of pages the project fetcher consumes: stop before an empty
page only. -/
def pagesUntilEmpty {α : Type} : List (List α) → List (List α)
  | [] => []
  | p :: ps => if p.isEmpty then [] else p :: pagesUntilEmpty ps

/-- A minimal relevant event, for concrete instances. -/
def samplePushedEvent : Event :=
  { action_name := some "pushed to" }

/-- A minimal project with a given id, for concrete instances. -/
def sampleProject (i : Int) : Project :=
  { id := some i }

/-! ### Pagination lemmas -/

theorem countPushed_foldl (n : Nat) (evs : List Event) :
    evs.foldl (fun m e => if e.action_name = some "pushed to" then m + 1 else m) n
      = n + countPushed evs := by
  induction evs generalizing n with
  | nil => simp [countPushed]
  | cons e es ih =>
    have h1 : countPushed (e :: es)
        = (if e.action_name = some "pushed to" then 0 + 1 else 0) + countPushed es := by
      rw [countPushed, List.foldl_cons, ih]
    rw [List.foldl_cons, ih, h1]
    by_cases h : e.action_name = some "pushed to"
    · simp [h]
      omega
    · simp [h]

theorem countPushed_append (a b : List Event) :
    countPushed (a ++ b) = countPushed a + countPushed b := by
  rw [countPushed, List.foldl_append, countPushed_foldl]
  rfl

theorem extractPushEvents_append (u : Option String) (a b : List Event) :
    extractPushEvents u (a ++ b) = extractPushEvents u a ++ extractPushEvents u b := by
  simp [extractPushEvents, List.filterMap_append]

theorem extractProjects_append (a b : List Project) :
    extractProjects (a ++ b) = extractProjects a ++ extractProjects b := by
  simp [extractProjects, List.filterMap_append]

theorem getUserPushCountGo_ok (pages : List (List Event)) (acc : Nat) :
    getUserPushCountGo acc (pages.map Except.ok) =
      acc + countPushed (pagesUntilShort EVENTS_PER_PAGE pages).flatten := by
  induction pages generalizing acc with
  | nil => simp [getUserPushCountGo, pagesUntilShort, countPushed]
  | cons p ps ih =>
    by_cases hemp : p.isEmpty
    · simp [getUserPushCountGo, pagesUntilShort, hemp, countPushed]
    · by_cases hshort : p.length < EVENTS_PER_PAGE
      · simp [getUserPushCountGo, pagesUntilShort, hemp, hshort, countPushed_append,
          countPushed]
      · simp [getUserPushCountGo, pagesUntilShort, hemp, hshort, ih, countPushed_append]
        omega

theorem getUserPushEventsGo_ok (u : Option String) (pages : List (List Event))
    (acc : List EventData) :
    getUserPushEventsGo u acc (pages.map Except.ok) =
      acc ++ extractPushEvents u (pagesUntilShort EVENTS_PER_PAGE pages).flatten := by
  induction pages generalizing acc with
  | nil => simp [getUserPushEventsGo, pagesUntilShort, extractPushEvents]
  | cons p ps ih =>
    by_cases hemp : p.isEmpty
    · simp [getUserPushEventsGo, pagesUntilShort, hemp, extractPushEvents]
    · by_cases hshort : p.length < EVENTS_PER_PAGE
      · simp [getUserPushEventsGo, pagesUntilShort, hemp, hshort, extractPushEvents_append]
      · simp [getUserPushEventsGo, pagesUntilShort, hemp, hshort, ih,
          extractPushEvents_append]

theorem getAllProjectIdsGo_ok (pages : List (List Project))
    (acc : List (Int × Option String)) :
    getAllProjectIdsGo acc (pages.map Except.ok) =
      acc ++ extractProjects (pagesUntilEmpty pages).flatten := by
  induction pages generalizing acc with
  | nil => simp [getAllProjectIdsGo, pagesUntilEmpty, extractProjects]
  | cons p ps ih =>
    by_cases hemp : p.isEmpty
    · simp [getAllProjectIdsGo, pagesUntilEmpty, hemp, extractProjects]
    · simp [getAllProjectIdsGo, pagesUntilEmpty, hemp, ih, extractProjects_append]

/-- C2: the event fetchers (count-only and detailed) consume exactly the
pages up to the first empty page or first short page and yield exactly the
records of those pages (one count / one flat record per relevant event, in
page order); the project fetcher consumes pages up to the first truly empty
page, with no short-page exit.  The two concrete conjuncts separate the
policies: a short nonempty first page stops the event fetcher but not the
project fetcher. -/
theorem pagination_stop_policies :
    (∀ (u : Option String) (pages : List (List Event)),
      get_user_push_events u (pages.map Except.ok)
        = extractPushEvents u (pagesUntilShort EVENTS_PER_PAGE pages).flatten) ∧
    (∀ pages : List (List Event),
      get_user_push_count (pages.map Except.ok)
        = countPushed (pagesUntilShort EVENTS_PER_PAGE pages).flatten) ∧
    (∀ pages : List (List Project),
      get_all_project_ids (pages.map Except.ok)
        = extractProjects (pagesUntilEmpty pages).flatten) ∧
    get_user_push_count
      [Except.ok [samplePushedEvent], Except.ok [samplePushedEvent]] = 1 ∧
    get_all_project_ids
      [Except.ok [sampleProject 1], Except.ok [sampleProject 2], Except.ok []]
      = [(1, none), (2, none)] := by
  refine ⟨?_, ?_, ?_, by decide, by decide⟩
  · intro u pages
    simpa using getUserPushEventsGo_ok u pages []
  · intro pages
    simpa using getUserPushCountGo_ok pages 0
  · intro pages
    simpa using getAllProjectIdsGo_ok pages []

/-! ### C3 : error policy of the listing fetchers -/

theorem getAllProjectIdsGo_error (pages : List (List Project))
    (rest : List (Resp Project)) (acc : List (Int × Option String))
    (hp : ∀ p ∈ pages, p.isEmpty = false) :
    getAllProjectIdsGo acc (pages.map Except.ok ++ Except.error () :: rest)
      = acc ++ extractProjects pages.flatten := by
  induction pages generalizing acc with
  | nil => simp [getAllProjectIdsGo, extractProjects]
  | cons p ps ih =>
    have hpf : p.isEmpty = false := hp p (List.mem_cons_self p ps)
    have ih2 := ih (acc ++ extractProjects p) (fun q hq => hp q (List.mem_cons_of_mem p hq))
    simp [getAllProjectIdsGo, hpf, ih2, extractProjects_append]

theorem getAllUsersGo_error (pages : List (List ApiUser))
    (rest : List (Resp ApiUser)) (acc : List UserRec)
    (hu : ∀ p ∈ pages, p.isEmpty = false) :
    getAllUsersGo acc (pages.map Except.ok ++ Except.error () :: rest) = none := by
  induction pages generalizing acc with
  | nil => simp [getAllUsersGo]
  | cons p ps ih =>
    have hpf : p.isEmpty = false := hu p (List.mem_cons_self p ps)
    have ih2 := ih (acc ++ extractUsers p) (fun q hq => hu q (List.mem_cons_of_mem p hq))
    simp [getAllUsersGo, hpf, ih2]

theorem getAllUsersEGo_error (filt : String) (pages : List (List ApiUser))
    (rest : List (Resp ApiUser)) (acc : List UserRecE)
    (hu : ∀ p ∈ pages, p.isEmpty = false) :
    getAllUsersEGo filt acc (pages.map Except.ok ++ Except.error () :: rest) = none := by
  induction pages generalizing acc with
  | nil => simp [getAllUsersEGo]
  | cons p ps ih =>
    have hpf : p.isEmpty = false := hu p (List.mem_cons_self p ps)
    have ih2 := ih (acc ++ extractUsersE filt p)
      (fun q hq => hu q (List.mem_cons_of_mem p hq))
    simp [getAllUsersEGo, hpf, ih2]

/-- C3 counterexample: the user-listing fetcher does NOT return the records
accumulated before the error — on a transport error after one good page it
returns `None`, not the users of that page. -/
theorem user_fetch_error_discards_cex :
    get_all_users [Except.ok [{ id := some 1, username := some "alice" }],
      Except.error ()] = none
    ∧ get_all_users [Except.ok [{ id := some 1, username := some "alice" }],
        Except.error ()]
      ≠ some (extractUsers [{ id := some 1, username := some "alice" }]) := by
  have h0 : get_all_users [Except.ok [{ id := some 1, username := some "alice" }],
      Except.error ()] = none := rfl
  refine ⟨h0, fun h => ?_⟩
  rw [h0] at h
  exact Option.noConfusion h

/-- C3 (amended): on a transport or status error while fetching page N, the
project-listing fetcher stops and still returns the records accumulated
from pages 1..N-1, but the user-listing fetchers (plain and by-email)
return `None`, discarding everything accumulated so far. -/
theorem fetch_error_policy_A_amended
    (ppages : List (List Project)) (upages : List (List ApiUser))
    (prest : List (Resp Project)) (urest : List (Resp ApiUser))
    (hp : ∀ p ∈ ppages, p.isEmpty = false)
    (hu : ∀ p ∈ upages, p.isEmpty = false) :
    get_all_project_ids (ppages.map Except.ok ++ Except.error () :: prest)
      = extractProjects ppages.flatten ∧
    get_all_users (upages.map Except.ok ++ Except.error () :: urest) = none ∧
    get_all_users_by_email EMAIL_FILTER_SUBSTRING
      (upages.map Except.ok ++ Except.error () :: urest) = none := by
  refine ⟨?_, ?_, ?_⟩
  · simpa using getAllProjectIdsGo_error ppages prest [] hp
  · exact getAllUsersGo_error upages urest [] hu
  · exact getAllUsersEGo_error EMAIL_FILTER_SUBSTRING upages urest [] hu

/-- Witness for the amended C3 at a concrete input: one nonempty project
page and one nonempty user page followed by an error. -/
theorem fetch_error_policy_A_amended_witness :
    (∀ p ∈ [[sampleProject 7]], p.isEmpty = false) ∧
    (∀ p ∈ [[({ username := some "alice" } : ApiUser)]], p.isEmpty = false) ∧
    (get_all_project_ids [Except.ok [sampleProject 7], Except.error ()]
        = extractProjects [sampleProject 7] ∧
      get_all_users [Except.ok [({ username := some "alice" } : ApiUser)],
        Except.error ()] = none ∧
      get_all_users_by_email EMAIL_FILTER_SUBSTRING
        [Except.ok [({ username := some "alice" } : ApiUser)], Except.error ()]
        = none) := by
  refine ⟨by decide, by decide, ?_⟩
  have h := fetch_error_policy_A_amended [[sampleProject 7]]
    [[({ username := some "alice" } : ApiUser)]] [] [] (by decide) (by decide)
  simpa using h

/-! ### C5 : exact action_name filtering -/

theorem countPushed_cons (e : Event) (es : List Event) :
    countPushed (e :: es)
      = (if e.action_name = some "pushed to" then 1 else 0) + countPushed es := by
  rw [countPushed, List.foldl_cons, countPushed_foldl]

theorem extractPushEvents_cons (u : Option String) (e : Event) (es : List Event) :
    extractPushEvents u (e :: es)
      = (if e.action_name = some "pushed to" then [extractPushEvent u e] else [])
          ++ extractPushEvents u es := by
  rw [extractPushEvents, List.filterMap_cons]
  by_cases h : e.action_name = some "pushed to" <;> simp [h, extractPushEvents]

/-- An event that is not a merge request, for concrete instances. -/
def mrEvent : Event :=
  { action_name := some "opened a merge request" }

/-- C5: an event contributes to the push count, to the detailed per-event
records, and to the last-push reduction, exactly when its `action_name` is
the string `'pushed to'`: the count is the number of such events, the
detailed records are the image of exactly those events, and inserting an
event with any other `action_name` anywhere changes neither output nor the
reducer state. -/
theorem relevant_iff_pushed_to :
    (∀ evs : List Event,
      countPushed evs
        = (evs.filter (fun e => decide (e.action_name = some "pushed to"))).length) ∧
    (∀ (u : Option String) (evs : List Event),
      extractPushEvents u evs
        = (evs.filter (fun e => decide (e.action_name = some "pushed to"))).map
            (extractPushEvent u)) ∧
    (∀ (evs1 evs2 : List Event) (e : Event) (u : Option String),
      e.action_name ≠ some "pushed to" →
        countPushed (evs1 ++ e :: evs2) = countPushed (evs1 ++ evs2) ∧
        extractPushEvents u (evs1 ++ e :: evs2) = extractPushEvents u (evs1 ++ evs2) ∧
        (∀ st : RState, processEvent st e = Except.ok st)) := by
  have hcount : ∀ evs : List Event,
      countPushed evs
        = (evs.filter (fun e => decide (e.action_name = some "pushed to"))).length := by
    intro evs
    induction evs with
    | nil => rfl
    | cons e es ih =>
      rw [countPushed_cons, ih, List.filter_cons]
      by_cases h : e.action_name = some "pushed to" <;> simp [h, Nat.add_comm]
  have hext : ∀ (u : Option String) (evs : List Event),
      extractPushEvents u evs
        = (evs.filter (fun e => decide (e.action_name = some "pushed to"))).map
            (extractPushEvent u) := by
    intro u evs
    induction evs with
    | nil => rfl
    | cons e es ih =>
      rw [extractPushEvents, List.filterMap_cons, List.filter_cons]
      by_cases h : e.action_name = some "pushed to" <;>
        simpa [h, extractPushEvents] using ih
  refine ⟨hcount, hext, ?_⟩
  intro evs1 evs2 e u h
  refine ⟨?_, ?_, ?_⟩
  · rw [countPushed_append, countPushed_append, countPushed_cons]
    simp [h]
  · rw [extractPushEvents_append, extractPushEvents_append, extractPushEvents_cons]
    simp [h]
  · intro st
    simp [processEvent, h]

/-- Witness for C5: an `'opened a merge request'` event inserted between
two pushed-to events is never counted, recorded, or allowed to change the
reducer state. -/
theorem relevant_iff_pushed_to_witness :
    mrEvent.action_name ≠ some "pushed to" ∧
    (countPushed ([samplePushedEvent] ++ mrEvent :: [samplePushedEvent])
        = countPushed ([samplePushedEvent] ++ [samplePushedEvent]) ∧
      extractPushEvents (some "alice")
          ([samplePushedEvent] ++ mrEvent :: [samplePushedEvent])
        = extractPushEvents (some "alice") ([samplePushedEvent] ++ [samplePushedEvent]) ∧
      ∀ st : RState, processEvent st mrEvent = Except.ok st) := by
  have hne : mrEvent.action_name ≠ some "pushed to" := by decide
  exact ⟨hne, relevant_iff_pushed_to.2.2 [samplePushedEvent] [samplePushedEvent]
    mrEvent (some "alice") hne⟩

/-! ### C6 : case-insensitive email substring filter -/

theorem beginsWith_iff (sub : List Char) :
    ∀ l : List Char, beginsWith sub l = true ↔ ∃ post, l = sub ++ post := by
  induction sub with
  | nil =>
    intro l
    simp [beginsWith]
  | cons a as ih =>
    intro l
    cases l with
    | nil =>
      simp [beginsWith]
    | cons b bs =>
      rw [beginsWith, Bool.and_eq_true, decide_eq_true_eq, ih]
      constructor
      · rintro ⟨rfl, post, rfl⟩
        exact ⟨post, rfl⟩
      · rintro ⟨post, h⟩
        rw [List.cons_append, List.cons.injEq] at h
        exact ⟨h.1.symm, post, h.2⟩

theorem charsContain_nil_sub (l : List Char) : charsContain [] l = true := by
  cases l with
  | nil => rfl
  | cons c cs => simp [charsContain, beginsWith]

theorem charsContain_iff (sub : List Char) :
    ∀ l : List Char, charsContain sub l = true ↔ ∃ pre post, l = pre ++ sub ++ post := by
  intro l
  induction l with
  | nil =>
    rw [charsContain]
    constructor
    · intro h
      refine ⟨[], [], ?_⟩
      rw [List.isEmpty_iff] at h
      simp [h]
    · rintro ⟨pre, post, h⟩
      rw [List.isEmpty_iff]
      rcases List.append_eq_nil.mp h.symm with ⟨h1, h2⟩
      exact (List.append_eq_nil.mp h1).2
  | cons c cs ih =>
    rw [charsContain, Bool.or_eq_true, beginsWith_iff, ih]
    constructor
    · rintro (⟨post, h⟩ | ⟨pre, post, h⟩)
      · exact ⟨[], post, by simpa using h⟩
      · exact ⟨c :: pre, post, by simp [h]⟩
    · rintro ⟨pre, post, h⟩
      cases pre with
      | nil =>
        left
        exact ⟨post, by simpa using h⟩
      | cons x xs =>
        right
        rw [List.cons_append, List.cons_append, List.cons.injEq] at h
        exact ⟨xs, post, h.2⟩

theorem string_toList_ne_nil (s : String) (h : s ≠ "") : s.toList ≠ [] := by
  intro hl
  apply h
  have hdata : s.data = [] := hl
  cases s with
  | mk data =>
    simp only at hdata
    rw [hdata]

/-- C6: the email filter of the by-email user fetcher keeps a user exactly
when the lowercased filter string occurs contiguously in the lowercased
email field; the empty filter keeps every user, and a user whose email
field is absent or empty never passes a non-empty filter. -/
theorem email_filter_semantics :
    (∀ u : ApiUser, emailKeep "" u = true) ∧
    (∀ (filt : String) (u : ApiUser), filt ≠ "" →
      u.email = none ∨ u.email = some "" → emailKeep filt u = false) ∧
    (∀ (filt : String) (u : ApiUser),
      emailKeep filt u = true ↔
        ∃ pre post, lowerChars (u.email.getD "").toList
          = pre ++ lowerChars filt.toList ++ post) := by
  have hunfold : ∀ (filt : String) (u : ApiUser),
      emailKeep filt u
        = charsContain (lowerChars filt.toList) (lowerChars (u.email.getD "").toList) :=
    fun filt u => rfl
  refine ⟨?_, ?_, ?_⟩
  · intro u
    rw [hunfold]
    exact charsContain_nil_sub _
  · intro filt u hfilt hmail
    have hsub : lowerChars filt.toList ≠ [] := by
      intro hc
      exact string_toList_ne_nil filt hfilt (List.map_eq_nil_iff.mp hc)
    have hm : u.email.getD "" = "" := by
      rcases hmail with h | h <;> simp [h]
    rw [hunfold, hm]
    show charsContain (lowerChars filt.toList) [] = false
    rw [charsContain]
    cases hc : lowerChars filt.toList with
    | nil => exact absurd hc hsub
    | cons a as => rfl
  · intro filt u
    rw [hunfold]
    exact charsContain_iff _ _

/-- Witness for C6 at a concrete input: the non-empty filter `"kestrl"`
rejects a user with no email field. -/
theorem email_filter_semantics_witness :
    (("kestrl" : String) ≠ "") ∧
    (({ email := none } : ApiUser).email = none ∨
      ({ email := none } : ApiUser).email = some "") ∧
    emailKeep "kestrl" ({ email := none } : ApiUser) = false := by
  refine ⟨by decide, Or.inl rfl, ?_⟩
  exact email_filter_semantics.2.1 "kestrl" { email := none } (by decide) (Or.inl rfl)

/-! ### C4 / C7 : the user_activity.py main loop -/

theorem getUserPushCountGo_error (good : List (List Event)) (rest : List (Resp Event))
    (acc : Nat)
    (hfull : ∀ p ∈ good, p.isEmpty = false ∧ ¬ p.length < EVENTS_PER_PAGE) :
    getUserPushCountGo acc (good.map Except.ok ++ Except.error () :: rest)
      = acc + countPushed good.flatten := by
  induction good generalizing acc with
  | nil => simp [getUserPushCountGo, countPushed]
  | cons p ps ih =>
    obtain ⟨hemp, hshort⟩ := hfull p (List.mem_cons_self p ps)
    have ih2 := ih (acc + countPushed p) (fun q hq => hfull q (List.mem_cons_of_mem p hq))
    simp [getUserPushCountGo, hemp, hshort, ih2, countPushed_append]
    omega

/-- The total of the per-user counts, each user's count computed
independently from its own responses. -/
def totalPushesOf (users : List (UserRec × List (Resp Event))) : Nat :=
  (users.map (fun u => get_user_push_count u.2)).sum

theorem mainLoop_total_go (users : List (UserRec × List (Resp Event))) :
    ∀ st : MainState,
      (users.foldl mainStep st).total_pushes = st.total_pushes + totalPushesOf users := by
  induction users with
  | nil =>
    intro st
    simp [totalPushesOf]
  | cons u us ih =>
    intro st
    rw [List.foldl_cons, ih]
    have htot : totalPushesOf (u :: us) = get_user_push_count u.2 + totalPushesOf us := by
      simp [totalPushesOf]
    rw [htot, mainStep]
    by_cases h : get_user_push_count u.2 > 0
    · simp [h]
      omega
    · simp [h]
      omega

theorem dictInsert_mem (k : Option String) (v : Nat) (l : List (Option String × Nat))
    (x : Option String × Nat) (hx : x ∈ dictInsert k v l) : x = (k, v) ∨ x ∈ l := by
  induction l with
  | nil =>
    rw [dictInsert] at hx
    exact Or.inl (List.mem_singleton.mp hx)
  | cons y ys ih =>
    obtain ⟨k2, v2⟩ := y
    rw [dictInsert] at hx
    by_cases h : k2 = k
    · rw [if_pos h] at hx
      rcases List.mem_cons.mp hx with h1 | h1
      · exact Or.inl h1
      · exact Or.inr (List.mem_cons_of_mem _ h1)
    · rw [if_neg h] at hx
      rcases List.mem_cons.mp hx with h1 | h1
      · exact Or.inr (h1 ▸ List.mem_cons_self _ _)
      · rcases ih h1 with h2 | h2
        · exact Or.inl h2
        · exact Or.inr (List.mem_cons_of_mem _ h2)

theorem dictInsert_not_mem (k : Option String) (v : Nat) (l : List (Option String × Nat))
    (h : k ∉ l.map Prod.fst) : dictInsert k v l = l ++ [(k, v)] := by
  induction l with
  | nil => rfl
  | cons y ys ih =>
    obtain ⟨k2, v2⟩ := y
    simp only [List.map_cons, List.mem_cons, not_or] at h
    rw [dictInsert, if_neg (fun he => h.1 he.symm), ih h.2]
    rfl

theorem mainLoop_results_pos_go (users : List (UserRec × List (Resp Event))) :
    ∀ st : MainState, (∀ x ∈ st.results, 0 < x.2) →
      ∀ x ∈ (users.foldl mainStep st).results, 0 < x.2 := by
  induction users with
  | nil =>
    intro st h
    simpa using h
  | cons u us ih =>
    intro st h
    rw [List.foldl_cons]
    apply ih
    intro x hx
    rw [mainStep] at hx
    by_cases hc : get_user_push_count u.2 > 0
    · simp only [hc, if_pos] at hx
      rcases dictInsert_mem _ _ _ _ hx with rfl | hmem
      · exact hc
      · exact h x hmem
    · simp only [hc, if_neg] at hx
      exact h x hx

theorem mainLoop_results_length_go (users : List (UserRec × List (Resp Event))) :
    ∀ st : MainState,
      users.Pairwise (fun a b => a.1.username ≠ b.1.username) →
      (∀ u ∈ users, u.1.username ∉ st.results.map Prod.fst) →
      (users.foldl mainStep st).results.length
        = st.results.length
          + (users.filter (fun u => 0 < get_user_push_count u.2)).length := by
  induction users with
  | nil =>
    intro st _ _
    simp
  | cons u us ih =>
    intro st hpw hnotin
    have hpw2 := (List.pairwise_cons.mp hpw).2
    have hune := (List.pairwise_cons.mp hpw).1
    rw [List.foldl_cons, List.filter_cons]
    by_cases hc : 0 < get_user_push_count u.2
    · have hkey : u.1.username ∉ st.results.map Prod.fst :=
        hnotin u (List.mem_cons_self u us)
      have hstep : (mainStep st u).results
          = st.results ++ [(u.1.username, get_user_push_count u.2)] := by
        rw [mainStep]
        simp only [hc, if_pos]
        exact dictInsert_not_mem _ _ _ hkey
      have hnotin2 : ∀ v ∈ us, v.1.username ∉ (mainStep st u).results.map Prod.fst := by
        intro v hv
        rw [hstep]
        simp only [List.map_append, List.mem_append, List.map_cons, List.map_nil,
          List.mem_singleton, not_or]
        exact ⟨hnotin v (List.mem_cons_of_mem u hv),
          fun he => (hune v hv) he.symm⟩
      have htotstep : (mainStep st u).total_pushes = (mainStep st u).total_pushes := rfl
      rw [ih (mainStep st u) hpw2 hnotin2, hstep]
      simp [hc]
      omega
    · have hstep : mainStep st u = st := by
        rw [mainStep]
        simp [hc]
      rw [hstep, ih st hpw2 (fun v hv => hnotin v (List.mem_cons_of_mem u hv))]
      simp [hc]

theorem insDescBy_perm {α : Type} (k : α → Nat) (x : α) (l : List α) :
    (insDescBy k x l).Perm (x :: l) := by
  induction l with
  | nil => exact List.Perm.refl _
  | cons y ys ih =>
    rw [insDescBy]
    by_cases h : k y ≤ k x
    · rw [if_pos h]
    · rw [if_neg h]
      exact (ih.cons y).trans (List.Perm.swap x y ys)

theorem sortDescBy_perm {α : Type} (k : α → Nat) (l : List α) :
    (sortDescBy k l).Perm l := by
  induction l with
  | nil => exact List.Perm.refl _
  | cons x xs ih =>
    rw [sortDescBy]
    exact (insDescBy_perm k x (sortDescBy k xs)).trans (ih.cons x)

/-- C4: a transport error while fetching a page of one user's events makes
`get_user_push_count` return the count accumulated from the pages processed
before the error, and the main loop keeps processing: the run's total is
the sum of the counts of the users before, the partial count of the failing
user, and the counts of the users after. -/
theorem per_user_partial_on_error
    (good : List (List Event)) (rest : List (Resp Event))
    (pre post : List (UserRec × List (Resp Event))) (u : UserRec)
    (hfull : ∀ p ∈ good, p.isEmpty = false ∧ ¬ p.length < EVENTS_PER_PAGE) :
    get_user_push_count (good.map Except.ok ++ Except.error () :: rest)
      = countPushed good.flatten ∧
    (mainLoop (pre ++ (u, good.map Except.ok ++ Except.error () :: rest) :: post)).total_pushes
      = totalPushesOf pre + countPushed good.flatten + totalPushesOf post := by
  have h1 : get_user_push_count (good.map Except.ok ++ Except.error () :: rest)
      = countPushed good.flatten := by
    simpa using getUserPushCountGo_error good rest 0 hfull
  refine ⟨h1, ?_⟩
  rw [mainLoop, mainLoop_total_go]
  simp [totalPushesOf, h1]
  omega

/-- Witness for C4: one full good page (100 pushed-to events) before the
error, and one further user processed after the failing one. -/
theorem per_user_partial_on_error_witness :
    (∀ p ∈ [List.replicate 100 samplePushedEvent],
      p.isEmpty = false ∧ ¬ p.length < EVENTS_PER_PAGE) ∧
    (get_user_push_count
        ([List.replicate 100 samplePushedEvent].map Except.ok ++ Except.error () :: [])
      = countPushed [List.replicate 100 samplePushedEvent].flatten ∧
    (mainLoop ([] ++ ({ id := some 1, username := some "alice" },
        [List.replicate 100 samplePushedEvent].map Except.ok ++ Except.error () :: [])
        :: [({ id := some 2, username := some "bob" }, [Except.ok []])])).total_pushes
      = totalPushesOf []
        + countPushed [List.replicate 100 samplePushedEvent].flatten
        + totalPushesOf [({ id := some 2, username := some "bob" }, [Except.ok []])]) := by
  refine ⟨by decide, ?_⟩
  exact per_user_partial_on_error [List.replicate 100 samplePushedEvent] []
    [] [({ id := some 2, username := some "bob" }, [Except.ok []])]
    { id := some 1, username := some "alice" } (by decide)

/-- C7: zero-count users are excluded from the `results` dict before
storage (every stored entry is positive, also after the console sort),
the total push count is the sum of the per-user counts of all processed
users, and with pairwise-distinct usernames the number of stored entries —
the reported number of unique contributors — is the number of users with a
positive count. -/
theorem zero_count_excluded_totals
    (users : List (UserRec × List (Resp Event)))
    (hdist : users.Pairwise (fun a b => a.1.username ≠ b.1.username)) :
    (mainLoop users).total_pushes = totalPushesOf users ∧
    (∀ x ∈ (mainLoop users).results, 0 < x.2) ∧
    (∀ x ∈ sortDescBy Prod.snd (mainLoop users).results, 0 < x.2) ∧
    (mainLoop users).results.length
      = (users.filter (fun u => 0 < get_user_push_count u.2)).length := by
  have hpos : ∀ x ∈ (mainLoop users).results, 0 < x.2 :=
    mainLoop_results_pos_go users { results := [], total_pushes := 0 }
      (by intro x hx; simp at hx)
  refine ⟨?_, hpos, ?_, ?_⟩
  · rw [mainLoop, mainLoop_total_go]
    simp
  · intro x hx
    exact hpos x ((sortDescBy_perm Prod.snd (mainLoop users).results).mem_iff.mp hx)
  · have := mainLoop_results_length_go users { results := [], total_pushes := 0 }
      hdist (by intro v hv; simp)
    simpa using this

/-- Witness for C7: two users with distinct usernames, one with a single
pushed-to event and one with none. -/
theorem zero_count_excluded_totals_witness :
    ([(({ id := some 1, username := some "alice" } : UserRec),
        [(Except.ok [samplePushedEvent] : Resp Event)]),
      (({ id := some 2, username := some "bob" } : UserRec),
        [(Except.ok [] : Resp Event)])].Pairwise
      (fun a b => a.1.username ≠ b.1.username)) ∧
    ((mainLoop [({ id := some 1, username := some "alice" }, [Except.ok [samplePushedEvent]]),
        ({ id := some 2, username := some "bob" }, [Except.ok []])]).total_pushes
      = totalPushesOf [({ id := some 1, username := some "alice" },
          [Except.ok [samplePushedEvent]]),
          ({ id := some 2, username := some "bob" }, [Except.ok []])] ∧
    (∀ x ∈ (mainLoop [({ id := some 1, username := some "alice" },
        [Except.ok [samplePushedEvent]]),
        ({ id := some 2, username := some "bob" }, [Except.ok []])]).results, 0 < x.2) ∧
    (∀ x ∈ sortDescBy Prod.snd (mainLoop [({ id := some 1, username := some "alice" },
        [Except.ok [samplePushedEvent]]),
        ({ id := some 2, username := some "bob" }, [Except.ok []])]).results, 0 < x.2) ∧
    (mainLoop [({ id := some 1, username := some "alice" },
        [Except.ok [samplePushedEvent]]),
        ({ id := some 2, username := some "bob" }, [Except.ok []])]).results.length
      = ([({ id := some 1, username := some "alice" }, [Except.ok [samplePushedEvent]]),
          (({ id := some 2, username := some "bob" } : UserRec),
            [(Except.ok [] : Resp Event)])].filter
          (fun u => 0 < get_user_push_count u.2)).length) := by
  refine ⟨by decide, ?_⟩
  exact zero_count_excluded_totals _ (by decide)

/-! ### C8 : sort order and stability of the reports -/

theorem insDescBy_pairwise {α : Type} (k : α → Nat) (x : α) (l : List α)
    (hl : l.Pairwise (fun a b => k b ≤ k a)) :
    (insDescBy k x l).Pairwise (fun a b => k b ≤ k a) := by
  induction l with
  | nil => simp [insDescBy]
  | cons y ys ih =>
    obtain ⟨h1, h2⟩ := List.pairwise_cons.mp hl
    rw [insDescBy]
    by_cases h : k y ≤ k x
    · rw [if_pos h]
      refine List.pairwise_cons.mpr ⟨?_, hl⟩
      intro b hb
      rcases List.mem_cons.mp hb with rfl | hb2
      · exact h
      · exact (h1 b hb2).trans h
    · rw [if_neg h]
      refine List.pairwise_cons.mpr ⟨?_, ih h2⟩
      intro b hb
      rcases List.mem_cons.mp ((insDescBy_perm k x ys).mem_iff.mp hb) with rfl | hb2
      · exact Nat.le_of_lt (Nat.lt_of_not_le h)
      · exact h1 b hb2

theorem sortDescBy_pairwise {α : Type} (k : α → Nat) (l : List α) :
    (sortDescBy k l).Pairwise (fun a b => k b ≤ k a) := by
  induction l with
  | nil => simp [sortDescBy]
  | cons x xs ih =>
    rw [sortDescBy]
    exact insDescBy_pairwise k x (sortDescBy k xs) ih

theorem insDescBy_filter_key {α : Type} (k : α → Nat) (x : α) (l : List α) (n : Nat) :
    (insDescBy k x l).filter (fun z => k z = n)
      = (x :: l).filter (fun z => k z = n) := by
  induction l with
  | nil => rfl
  | cons y ys ih =>
    rw [insDescBy]
    by_cases h : k y ≤ k x
    · rw [if_pos h]
    · rw [if_neg h]
      by_cases hy : k y = n
      · by_cases hx : k x = n
        · exact absurd (hx.trans hy.symm ▸ Nat.le_refl (k x)) h
        · simp [List.filter_cons, hy, hx] at ih ⊢
          exact ih
      · simp [List.filter_cons, hy] at ih ⊢
        exact ih

theorem sortDescBy_filter_key {α : Type} (k : α → Nat) (l : List α) (n : Nat) :
    (sortDescBy k l).filter (fun z => k z = n) = l.filter (fun z => k z = n) := by
  induction l with
  | nil => rfl
  | cons x xs ih =>
    rw [sortDescBy, insDescBy_filter_key]
    by_cases hx : k x = n <;> simp [List.filter_cons, hx, ih]

/-- A sort function meeting the full documented guarantee of the library's
default `sort_values` (sorted permutation) while reversing ties: distinct
admissible behaviour of an unstable sort. -/
def unstableSortValues (l : List XlsxRow) : List XlsxRow :=
  sortDescBy (fun r => r.push_count) l.reverse

/-- C8 counterexample: the spreadsheet Summary sheet is ordered by
`pandas.DataFrame.sort_values(by='Push Count', ascending=False)` with the
library's default sort algorithm, which guarantees only a permutation
sorted by the key descending — not stability.  A sort function meeting that
full guarantee can put B before A on the spec's concrete rows
{A:5, B:5, C:3}, so the claimed insertion-order tie-breaking of the
spreadsheet does not follow from the code. -/
theorem xlsx_sort_unstable_cex :
    sortValuesOK (fun r => r.push_count) unstableSortValues ∧
    unstableSortValues
        [{ username := some "A", push_count := 5, last_date := none, last_commit := "CA" },
         { username := some "B", push_count := 5, last_date := none, last_commit := "CB" },
         { username := some "C", push_count := 3, last_date := none, last_commit := "CC" }]
      ≠ [{ username := some "A", push_count := 5, last_date := none, last_commit := "CA" },
         { username := some "B", push_count := 5, last_date := none, last_commit := "CB" },
         { username := some "C", push_count := 3, last_date := none, last_commit := "CC" }] := by
  refine ⟨fun l => ⟨?_, ?_⟩, ?_⟩
  · exact (sortDescBy_perm _ _).trans l.reverse_perm
  · exact sortDescBy_pairwise _ _
  · decide

/-- C8 (amended): the console table — CPython's `sorted(…, reverse=True)`,
which the language documents as stable — lists entries by count descending
as a permutation of the stored entries with equal-count entries kept in
their original insertion order (for every count value, filtering the sorted
list to that count gives exactly the filter of the input); at the spec's
concrete instance {A:5, B:5, C:3} the console order is A, B, C.  The
spreadsheet Summary sheet is only guaranteed to be a permutation sorted by
count descending (its tie order is up to the library's unstable default
sort). -/
theorem sort_console_stable_amended :
    (∀ (k : (Option String × Nat) → Nat) (l : List (Option String × Nat)),
      (sortDescBy k l).Perm l ∧
      (sortDescBy k l).Pairwise (fun a b => k b ≤ k a) ∧
      (∀ n : Nat, (sortDescBy k l).filter (fun x => k x = n)
        = l.filter (fun x => k x = n))) ∧
    sortDescBy Prod.snd [(some "A", 5), (some "B", 5), (some "C", 3)]
      = [(some "A", 5), (some "B", 5), (some "C", 3)] ∧
    (∀ f : List XlsxRow → List XlsxRow, sortValuesOK (fun r => r.push_count) f →
      ∀ rows : List XlsxRow,
        (f rows).Perm rows ∧ (f rows).Pairwise
          (fun a b => b.push_count ≤ a.push_count)) := by
  refine ⟨?_, by decide, ?_⟩
  · intro k l
    exact ⟨sortDescBy_perm k l, sortDescBy_pairwise k l,
      fun n => sortDescBy_filter_key k l n⟩
  · intro f hf rows
    exact hf rows

/-- Witness for the amended C8: a contract-satisfying spreadsheet sort
applied at the concrete rows is a sorted permutation of them. -/
theorem sort_console_stable_amended_witness :
    sortValuesOK (fun r : XlsxRow => r.push_count)
      (sortDescBy (fun r : XlsxRow => r.push_count)) ∧
    ((sortDescBy (fun r : XlsxRow => r.push_count)
        [{ username := some "A", push_count := 5, last_date := none, last_commit := "CA" }]).Perm
      [{ username := some "A", push_count := 5, last_date := none, last_commit := "CA" }] ∧
    (sortDescBy (fun r : XlsxRow => r.push_count)
        [{ username := some "A", push_count := 5, last_date := none, last_commit := "CA" }]).Pairwise
      (fun a b => b.push_count ≤ a.push_count)) := by
  have hok : sortValuesOK (fun r : XlsxRow => r.push_count)
      (sortDescBy (fun r : XlsxRow => r.push_count)) :=
    fun l => ⟨sortDescBy_perm _ l, sortDescBy_pairwise _ l⟩
  exact ⟨hok, sort_console_stable_amended.2.2
    (sortDescBy (fun r : XlsxRow => r.push_count)) hok
    [{ username := some "A", push_count := 5, last_date := none, last_commit := "CA" }]⟩

/-! ### C1 / C9 / C10 : the last-commit reducer -/

/-- The instant an event's `created_at` parses to under the reducer's
normalize-then-parse pipeline (0 for an absent field). -/
def eventInstant (e : Event) : Int :=
  match e.created_at with
  | some ts => (fromisoformat (replaceZ ts)).t
  | none => 0

/-- The maximum parsed instant of a list of events, starting from the
sentinel instant 0 of `datetime.datetime(1, 1, 1, tzinfo=utc)`. -/
def maxInstant (evs : List Event) : Int :=
  evs.foldl (fun m e => max m (eventInstant e)) 0

/-- The first event in scan order attaining the maximum instant. -/
def firstMaxEvent (evs : List Event) : Option Event :=
  evs.find? (fun e => eventInstant e = maxInstant evs)

/-- A relevant event the API contract can deliver: `action_name` is
`'pushed to'`, `created_at` is present, carries a timezone suffix, and
parses to an instant after the year-1 sentinel. -/
def eventWellFormed (e : Event) : Bool :=
  decide (e.action_name = some "pushed to") &&
  (match e.created_at with
   | some ts => decide (ts.suffix ≠ TzSuffix.naive) && decide (0 < eventInstant e)
   | none => false)

/-- An event the reducer can parse without raising: if it is relevant, its
`created_at` is present and timezone-suffixed (the API contract). -/
def eventParseSafe (e : Event) : Bool :=
  if e.action_name = some "pushed to" then
    match e.created_at with
    | some ts => decide (ts.suffix ≠ TzSuffix.naive)
    | none => false
  else true

/-- The reducer state reached after scanning a list of relevant
well-formed events. -/
def stateFor (l : List Event) : RState :=
  { push_count := l.length
    last_push_datetime := { t := maxInstant l, aware := true }
    last_push_commit_sha := match firstMaxEvent l with
      | some e => eventCommitTo e
      | none => "N/A" }

theorem fromisoformat_aware (ts : TsString) (h : ts.suffix ≠ TzSuffix.naive) :
    (fromisoformat (replaceZ ts)).aware = true := by
  cases hsuf : ts.suffix with
  | naive => exact absurd hsuf h
  | zulu => simp [replaceZ, fromisoformat, hsuf]
  | offsetTz off => simp [replaceZ, fromisoformat, hsuf]

theorem eventWellFormed_spec (e : Event) (h : eventWellFormed e = true) :
    e.action_name = some "pushed to" ∧
    ∃ ts, e.created_at = some ts ∧ ts.suffix ≠ TzSuffix.naive ∧
      fromisoformat (replaceZ ts) = { t := eventInstant e, aware := true } ∧
      0 < eventInstant e := by
  rw [eventWellFormed, Bool.and_eq_true, decide_eq_true_eq] at h
  obtain ⟨h1, h2⟩ := h
  refine ⟨h1, ?_⟩
  cases hca : e.created_at with
  | none =>
    rw [hca] at h2
    exact absurd h2 (by simp)
  | some ts =>
    rw [hca] at h2
    rw [Bool.and_eq_true, decide_eq_true_eq, decide_eq_true_eq] at h2
    have hinst : eventInstant e = (fromisoformat (replaceZ ts)).t := by
      rw [eventInstant, hca]
    refine ⟨ts, rfl, h2.1, ?_, h2.2⟩
    have haw := fromisoformat_aware ts h2.1
    calc fromisoformat (replaceZ ts)
        = { t := (fromisoformat (replaceZ ts)).t,
            aware := (fromisoformat (replaceZ ts)).aware } := rfl
      _ = { t := eventInstant e, aware := true } := by rw [hinst, haw]

theorem maxInstant_concat (l : List Event) (e : Event) :
    maxInstant (l ++ [e]) = max (maxInstant l) (eventInstant e) := by
  rw [maxInstant, List.foldl_append]
  rfl

theorem foldl_max_ge_init (l : List Event) :
    ∀ a : Int, a ≤ l.foldl (fun m e => max m (eventInstant e)) a := by
  induction l with
  | nil =>
    intro a
    exact le_refl a
  | cons e es ih =>
    intro a
    rw [List.foldl_cons]
    exact le_trans (le_max_left a (eventInstant e)) (ih _)

theorem foldl_max_mem (l : List Event) :
    ∀ (a : Int) (x : Event), x ∈ l →
      eventInstant x ≤ l.foldl (fun m e => max m (eventInstant e)) a := by
  induction l with
  | nil =>
    intro a x hx
    exact absurd hx (List.not_mem_nil x)
  | cons e es ih =>
    intro a x hx
    rw [List.foldl_cons]
    rcases List.mem_cons.mp hx with rfl | hx2
    · exact le_trans (le_max_right a (eventInstant x)) (foldl_max_ge_init es _)
    · exact ih _ x hx2

theorem le_maxInstant (l : List Event) (x : Event) (hx : x ∈ l) :
    eventInstant x ≤ maxInstant l :=
  foldl_max_mem l 0 x hx

theorem foldl_max_cases (l : List Event) :
    ∀ a : Int,
      l.foldl (fun m e => max m (eventInstant e)) a = a ∨
      ∃ x ∈ l, l.foldl (fun m e => max m (eventInstant e)) a = eventInstant x := by
  induction l with
  | nil =>
    intro a
    exact Or.inl rfl
  | cons e es ih =>
    intro a
    rw [List.foldl_cons]
    rcases ih (max a (eventInstant e)) with h | ⟨x, hx, hfe⟩
    · rw [h]
      rcases max_cases a (eventInstant e) with ⟨h1, _⟩ | ⟨h1, _⟩
      · exact Or.inl h1
      · exact Or.inr ⟨e, List.mem_cons_self e es, h1⟩
    · exact Or.inr ⟨x, List.mem_cons_of_mem e hx, hfe⟩

theorem maxInstant_attained (l : List Event) (h : 0 < maxInstant l) :
    ∃ x ∈ l, eventInstant x = maxInstant l := by
  rcases foldl_max_cases l 0 with h0 | ⟨x, hx, hfe⟩
  · rw [maxInstant] at h
    rw [h0] at h
    exact absurd h (lt_irrefl 0)
  · exact ⟨x, hx, hfe.symm⟩

theorem find?_append_none {α : Type} (p : α → Bool) (l1 l2 : List α)
    (h : ∀ x ∈ l1, p x = false) : (l1 ++ l2).find? p = l2.find? p := by
  induction l1 with
  | nil => rfl
  | cons a as ih =>
    rw [List.cons_append]
    rw [List.find?_cons_of_neg _ (by simp [h a (List.mem_cons_self a as)])]
    exact ih (fun x hx => h x (List.mem_cons_of_mem a hx))

theorem find?_append_some {α : Type} (p : α → Bool) (l1 l2 : List α) (y : α)
    (h : l1.find? p = some y) : (l1 ++ l2).find? p = some y := by
  induction l1 with
  | nil => simp at h
  | cons a as ih =>
    rw [List.cons_append]
    by_cases hp : p a = true
    · rw [List.find?_cons_of_pos _ hp] at h ⊢
      exact h
    · rw [List.find?_cons_of_neg _ hp] at h ⊢
      exact ih h

theorem firstMaxEvent_concat_gt (l : List Event) (e : Event)
    (hgt : maxInstant l < eventInstant e) :
    firstMaxEvent (l ++ [e]) = some e := by
  rw [firstMaxEvent, maxInstant_concat, max_eq_right (le_of_lt hgt)]
  rw [find?_append_none _ l [e] (fun x hx => by
    simp only [decide_eq_false_iff_not]
    exact ne_of_lt (lt_of_le_of_lt (le_maxInstant l x hx) hgt))]
  simp [List.find?]

theorem firstMaxEvent_concat_le (l : List Event) (e : Event)
    (hpos : 0 < eventInstant e) (hle : eventInstant e ≤ maxInstant l) :
    firstMaxEvent (l ++ [e]) = firstMaxEvent l := by
  rw [firstMaxEvent, maxInstant_concat, max_eq_left hle]
  obtain ⟨x, hx, hfx⟩ := maxInstant_attained l (lt_of_lt_of_le hpos hle)
  have hsome : l.find? (fun z => eventInstant z = maxInstant l) ≠ none := by
    intro hnone
    have := List.find?_eq_none.mp hnone x hx
    simp [hfx] at this
  cases hfind : l.find? (fun z => eventInstant z = maxInstant l) with
  | none => exact absurd hfind hsome
  | some y =>
    rw [find?_append_some _ l [e] y hfind, firstMaxEvent, hfind]

theorem processEvent_wf (l : List Event) (e : Event)
    (he : eventWellFormed e = true) :
    processEvent (stateFor l) e = Except.ok (stateFor (l ++ [e])) := by
  obtain ⟨hact, ts, hca, hne, hiso, hpos⟩ := eventWellFormed_spec e he
  rw [processEvent, if_pos hact, hca]
  simp only [hiso, pyGT, stateFor]
  by_cases hgt : maxInstant l < eventInstant e
  · have hm : maxInstant (l ++ [e]) = eventInstant e := by
      rw [maxInstant_concat, max_eq_right (le_of_lt hgt)]
    simp [decide_eq_true hgt, hm, firstMaxEvent_concat_gt l e hgt]
  · have hle : eventInstant e ≤ maxInstant l := le_of_not_lt hgt
    have hm : maxInstant (l ++ [e]) = maxInstant l := by
      rw [maxInstant_concat, max_eq_left hle]
    simp [hgt, hm, firstMaxEvent_concat_le l e hpos hle]

theorem processEvents_wf (l2 : List Event) :
    ∀ l1 : List Event, (∀ x ∈ l2, eventWellFormed x = true) →
      processEvents (stateFor l1) l2 = Except.ok (stateFor (l1 ++ l2)) := by
  induction l2 with
  | nil =>
    intro l1 _
    rw [processEvents]
    simp
  | cons e es ih =>
    intro l1 h2
    rw [processEvents, processEvent_wf l1 e (h2 e (List.mem_cons_self e es))]
    show processEvents (stateFor (l1 ++ [e])) es = _
    rw [ih (l1 ++ [e]) (fun x hx => h2 x (List.mem_cons_of_mem e hx))]
    simp

theorem getUserPushCountLcGo_pages (pages : List (List Event)) :
    ∀ l1 : List Event, (∀ x ∈ pages.flatten, eventWellFormed x = true) →
      getUserPushCountLcGo (stateFor l1) (pages.map Except.ok)
        = Except.ok (stateFor (l1 ++ (pagesUntilShort EVENTS_PER_PAGE pages).flatten)) := by
  induction pages with
  | nil =>
    intro l1 _
    simp [getUserPushCountLcGo, pagesUntilShort]
  | cons p ps ih =>
    intro l1 h2
    have hp : ∀ x ∈ p, eventWellFormed x = true := by
      intro x hx
      exact h2 x (List.mem_flatten.mpr ⟨p, List.mem_cons_self p ps, hx⟩)
    have hps : ∀ x ∈ ps.flatten, eventWellFormed x = true := by
      intro x hx
      rcases List.mem_flatten.mp hx with ⟨q, hq, hxq⟩
      exact h2 x (List.mem_flatten.mpr ⟨q, List.mem_cons_of_mem p hq, hxq⟩)
    by_cases hemp : p.isEmpty
    · simp [getUserPushCountLcGo, pagesUntilShort, hemp]
    · by_cases hshort : p.length < EVENTS_PER_PAGE
      · simp [getUserPushCountLcGo, pagesUntilShort, hemp, hshort,
          processEvents_wf p l1 hp]
      · have := ih (l1 ++ p) hps
        simp [getUserPushCountLcGo, pagesUntilShort, hemp, hshort,
          processEvents_wf p l1 hp, this, List.append_assoc]

/-- C1: over any sequence of event pages whose events are relevant and
well-formed, the last-commit reducer returns the `push_data.commit_to` of
the FIRST scanned event attaining the maximum `created_at` instant — a
later event overwrites the running maximum only when strictly greater, so
equal timestamps keep the earlier-scanned event — together with that
maximum instant and the count of scanned events. -/
theorem last_commit_first_max (pages : List (List Event))
    (hwf : ∀ e ∈ pages.flatten, eventWellFormed e = true) :
    ∀ e0 ∈ firstMaxEvent (pagesUntilShort EVENTS_PER_PAGE pages).flatten,
      get_user_push_count_lc (pages.map Except.ok)
        = Except.ok ((pagesUntilShort EVENTS_PER_PAGE pages).flatten.length,
            some { t := maxInstant (pagesUntilShort EVENTS_PER_PAGE pages).flatten,
                   aware := true },
            eventCommitTo e0) := by
  intro e0 he0
  have hfm : firstMaxEvent (pagesUntilShort EVENTS_PER_PAGE pages).flatten = some e0 :=
    Option.mem_def.mp he0
  have hne : (pagesUntilShort EVENTS_PER_PAGE pages).flatten ≠ [] := by
    intro h0
    rw [h0] at hfm
    simp [firstMaxEvent] at hfm
  have hlen : 0 < (pagesUntilShort EVENTS_PER_PAGE pages).flatten.length :=
    List.length_pos.mpr hne
  have hrun := getUserPushCountLcGo_pages pages [] hwf
  rw [List.nil_append] at hrun
  rw [get_user_push_count_lc]
  rw [show initRState = stateFor [] from rfl, hrun]
  simp only [stateFor, hfm]
  rw [if_pos hlen]

/-- A zulu-suffixed timestamp string, for concrete instances. -/
def tsZ (n : Int) : TsString :=
  { wall := n, suffix := TzSuffix.zulu }

/-- A relevant event with a given zulu timestamp and commit sha, for
concrete instances. -/
def evTC (n : Int) (sha : String) : Event :=
  { action_name := some "pushed to"
    created_at := some (tsZ n)
    push_data := some { commit_to := some sha } }

/-- Witness for C1 at the spec's instance: timestamps [T1, T3, T2] in fetch
order with T3 the true maximum — the commit of the T3 event is retained,
not that of the last-seen T2 event. -/
theorem last_commit_first_max_witness :
    (∀ e ∈ ([[evTC 1 "C1sha", evTC 3 "C3sha", evTC 2 "C2sha"]] :
        List (List Event)).flatten, eventWellFormed e = true) ∧
    evTC 3 "C3sha" ∈ firstMaxEvent
      (pagesUntilShort EVENTS_PER_PAGE
        [[evTC 1 "C1sha", evTC 3 "C3sha", evTC 2 "C2sha"]]).flatten ∧
    get_user_push_count_lc
        ([[evTC 1 "C1sha", evTC 3 "C3sha", evTC 2 "C2sha"]].map Except.ok)
      = Except.ok (3, some { t := 3, aware := true }, "C3sha") := by
  refine ⟨by decide, Option.mem_def.mpr (by decide), ?_⟩
  have h := last_commit_first_max [[evTC 1 "C1sha", evTC 3 "C3sha", evTC 2 "C2sha"]]
    (by decide) (evTC 3 "C3sha") (Option.mem_def.mpr (by decide))
  exact h.trans (by rfl)

/-! ### C9 : offset-aware comparison never raises -/

theorem processEvent_safe (st : RState) (e : Event)
    (hst : st.last_push_datetime.aware = true) (he : eventParseSafe e = true) :
    ∃ st2 : RState, processEvent st e = Except.ok st2 ∧
      st2.last_push_datetime.aware = true := by
  rw [processEvent]
  by_cases hact : e.action_name = some "pushed to"
  · rw [if_pos hact]
    rw [eventParseSafe, if_pos hact] at he
    cases hca : e.created_at with
    | none =>
      rw [hca] at he
      simp at he
    | some ts =>
      rw [hca] at he
      have hne : ts.suffix ≠ TzSuffix.naive := by simpa using he
      have haw : (fromisoformat (replaceZ ts)).aware = true := fromisoformat_aware ts hne
      have hcond : (fromisoformat (replaceZ ts)).aware = st.last_push_datetime.aware := by
        rw [haw, hst]
      simp only [pyGT]
      rw [if_pos hcond]
      by_cases hcmp : st.last_push_datetime.t < (fromisoformat (replaceZ ts)).t
      · rw [decide_eq_true hcmp]
        exact ⟨_, rfl, haw⟩
      · rw [decide_eq_false hcmp]
        exact ⟨_, rfl, hst⟩
  · rw [if_neg hact]
    exact ⟨st, rfl, hst⟩

theorem processEvents_safe (evs : List Event) :
    ∀ st : RState, st.last_push_datetime.aware = true →
      (∀ e ∈ evs, eventParseSafe e = true) →
      ∃ st2 : RState, processEvents st evs = Except.ok st2 ∧
        st2.last_push_datetime.aware = true := by
  induction evs with
  | nil =>
    intro st hst _
    exact ⟨st, rfl, hst⟩
  | cons e es ih =>
    intro st hst hsafe
    obtain ⟨st2, h2, haw2⟩ :=
      processEvent_safe st e hst (hsafe e (List.mem_cons_self e es))
    obtain ⟨st3, h3, haw3⟩ :=
      ih st2 haw2 (fun x hx => hsafe x (List.mem_cons_of_mem e hx))
    refine ⟨st3, ?_, haw3⟩
    rw [processEvents, h2]
    exact h3

theorem getUserPushCountLcGo_safe (resps : List (Resp Event)) :
    ∀ st : RState, st.last_push_datetime.aware = true →
      (∀ evs : List Event, Except.ok evs ∈ resps →
        ∀ e ∈ evs, eventParseSafe e = true) →
      ∃ st2 : RState, getUserPushCountLcGo st resps = Except.ok st2 := by
  induction resps with
  | nil =>
    intro st _ _
    exact ⟨st, rfl⟩
  | cons r rs ih =>
    intro st hst hsafe
    cases r with
    | error er => exact ⟨st, rfl⟩
    | ok evs =>
      by_cases hemp : evs.isEmpty
      · refine ⟨st, ?_⟩
        rw [getUserPushCountLcGo, if_pos hemp]
      · obtain ⟨st2, h2, haw2⟩ := processEvents_safe evs st hst
          (hsafe evs (List.mem_cons_self _ _))
        by_cases hshort : evs.length < EVENTS_PER_PAGE
        · refine ⟨st2, ?_⟩
          rw [getUserPushCountLcGo, if_neg hemp, h2]
          show (if evs.length < EVENTS_PER_PAGE then Except.ok st2
            else getUserPushCountLcGo st2 rs) = Except.ok st2
          rw [if_pos hshort]
        · obtain ⟨st3, h3⟩ := ih st2 haw2
            (fun evs2 hm => hsafe evs2 (List.mem_cons_of_mem _ hm))
          refine ⟨st3, ?_⟩
          rw [getUserPushCountLcGo, if_neg hemp, h2]
          show (if evs.length < EVENTS_PER_PAGE then Except.ok st2
            else getUserPushCountLcGo st2 rs) = Except.ok st3
          rw [if_neg hshort]
          exact h3

/-- C9: a trailing zulu marker is rewritten to the explicit `+00:00` offset
before parsing (so the parsed datetime is offset-aware), and over any
responses whose relevant events carry timezone-suffixed `created_at`
strings — the shape the API returns — the reducer completes without ever
raising: the naive-versus-aware `TypeError` comparison is never attempted
(the running maximum starts aware and stays aware). -/
theorem aware_comparison_never_raises (resps : List (Resp Event))
    (hsafe : ∀ evs : List Event, Except.ok evs ∈ resps →
      ∀ e ∈ evs, eventParseSafe e = true) :
    (∀ w : Int,
      replaceZ { wall := w, suffix := TzSuffix.zulu }
        = { wall := w, suffix := TzSuffix.offsetTz 0 } ∧
      fromisoformat (replaceZ { wall := w, suffix := TzSuffix.zulu })
        = { t := w, aware := true }) ∧
    ∃ v, get_user_push_count_lc resps = Except.ok v := by
  refine ⟨fun w => ⟨rfl, ?_⟩, ?_⟩
  · show ({ t := w - 0, aware := true } : PyDatetime) = { t := w, aware := true }
    simp
  obtain ⟨st2, h2⟩ := getUserPushCountLcGo_safe resps initRState rfl hsafe
  rw [get_user_push_count_lc, h2]
  exact ⟨_, rfl⟩

/-- Witness for C9: one page with a zulu-timestamped event followed by a
transport error — the reducer returns successfully. -/
theorem aware_comparison_never_raises_witness :
    (∀ evs : List Event,
      Except.ok evs ∈ ([Except.ok [evTC 4 "CA"], Except.error ()] : List (Resp Event)) →
      ∀ e ∈ evs, eventParseSafe e = true) ∧
    ((∀ w : Int,
      replaceZ { wall := w, suffix := TzSuffix.zulu }
        = { wall := w, suffix := TzSuffix.offsetTz 0 } ∧
      fromisoformat (replaceZ { wall := w, suffix := TzSuffix.zulu })
        = { t := w, aware := true }) ∧
    ∃ v, get_user_push_count_lc [Except.ok [evTC 4 "CA"], Except.error ()]
      = Except.ok v) := by
  have hs : ∀ evs : List Event,
      Except.ok evs ∈ ([Except.ok [evTC 4 "CA"], Except.error ()] : List (Resp Event)) →
      ∀ e ∈ evs, eventParseSafe e = true := by
    intro evs hm
    rcases List.mem_cons.mp hm with h | h
    · injection h with h1
      subst h1
      decide
    · rcases List.mem_cons.mp h with h2 | h2
      · exact Except.noConfusion h2
      · simp at h2
  exact ⟨hs, aware_comparison_never_raises _ hs⟩

/-! ### C10 : defensive handling of missing fields -/

/-- C10 counterexample: a relevant event lacking `created_at` makes the
last-commit reducer raise an uncaught `KeyError` (the bare
`event['created_at']` subscript), aborting the reduction instead of
substituting a sentinel. -/
theorem missing_created_at_keyerror_cex :
    get_user_push_count_lc [Except.ok [{ action_name := some "pushed to" }]]
      = Except.error PyErr.keyError := by
  rfl

/-- C10 (amended): the scripts default missing fields to sentinels without
aborting — the detailed-events variant builds its flat record from any
relevant event whatever fields are absent, a missing `push_data` or
`commit_to` yields the `'N/A'` sha, a missing `action_name` makes the
event irrelevant — EXCEPT that in the last-commit reducers a relevant
event lacking `created_at` raises an uncaught `KeyError` that aborts the
reduction (see the counterexample). -/
theorem defensive_fields_amended :
    (∀ (u : Option String) (e : Event), e.action_name = some "pushed to" →
      get_user_push_events u [Except.ok [e]] = [extractPushEvent u e]) ∧
    (extractPushEvent (some "alice") { action_name := some "pushed to" }
      = { username := some "alice", activity_name := some "pushed to",
          project_id := none, project_path := none, commit_count := none,
          ref := none, event_date := none }) ∧
    (∀ e : Event, e.push_data = none → eventCommitTo e = "N/A") ∧
    (∀ (e : Event) (pd : PushData), e.push_data = some pd → pd.commit_to = none →
      eventCommitTo e = "N/A") ∧
    (∀ e : Event, eventWellFormed e = true → e.push_data = none →
      get_user_push_count_lc [Except.ok [e]]
        = Except.ok (1, some { t := eventInstant e, aware := true }, "N/A")) := by
  refine ⟨?_, rfl, ?_, ?_, ?_⟩
  · intro u e hrel
    rw [get_user_push_events, getUserPushEventsGo]
    simp [extractPushEvents, hrel, EVENTS_PER_PAGE]
  · intro e h
    rw [eventCommitTo, h]
    rfl
  · intro e pd h hc
    rw [eventCommitTo, h]
    simp [hc]
  · intro e hwf hpd
    obtain ⟨hact, ts, hca, hne2, hiso, hposI⟩ := eventWellFormed_spec e hwf
    have hmax : maxInstant [e] = eventInstant e := by
      rw [maxInstant]
      simp [le_of_lt hposI]
    have hfm : firstMaxEvent [e] = some e := by
      rw [firstMaxEvent, hmax]
      simp [List.find?]
    have hflat : ∀ x ∈ ([[e]] : List (List Event)).flatten, eventWellFormed x = true := by
      intro x hx
      simp at hx
      subst hx
      exact hwf
    have hrun := getUserPushCountLcGo_pages [[e]] [] hflat
    have hshort : pagesUntilShort EVENTS_PER_PAGE ([[e]] : List (List Event)) = [[e]] := by
      rw [pagesUntilShort]
      simp [EVENTS_PER_PAGE, pagesUntilShort]
    rw [hshort] at hrun
    simp only [List.map_cons, List.map_nil, List.flatten_cons, List.flatten_nil,
      List.append_nil, List.nil_append] at hrun
    rw [get_user_push_count_lc,
      show initRState = stateFor [] from rfl, hrun]
    simp only [stateFor, hfm, hmax]
    simp [eventCommitTo, hpd]

/-- Witness for the amended C10: a relevant event with every other field
missing is recorded by the detailed variant, and a relevant event with a
timestamp but no push_data reduces to the `'N/A'` sha without aborting. -/
theorem defensive_fields_amended_witness :
    samplePushedEvent.action_name = some "pushed to" ∧
    eventWellFormed { action_name := some "pushed to", created_at := some (tsZ 5) }
      = true ∧
    ({ action_name := some "pushed to", created_at := some (tsZ 5) } : Event).push_data
      = none ∧
    get_user_push_events (some "bob") [Except.ok [samplePushedEvent]]
      = [extractPushEvent (some "bob") samplePushedEvent] ∧
    get_user_push_count_lc
        [Except.ok [{ action_name := some "pushed to", created_at := some (tsZ 5) }]]
      = Except.ok (1,
          some { t := eventInstant
                   { action_name := some "pushed to", created_at := some (tsZ 5) },
                 aware := true }, "N/A") := by
  refine ⟨rfl, by decide, rfl, ?_, ?_⟩
  · exact defensive_fields_amended.1 (some "bob") samplePushedEvent rfl
  · exact defensive_fields_amended.2.2.2.2 _ (by decide) rfl

end GitlabScripts
